import Mathlib

/-!
Verification of the numeric normalization and aggregation pipeline of
`enhanced_visualizations.py`.

The development shallowly embeds the two components the specification
describes:

* the height normalizer `height_to_inches` (source lines 30-43), together
  with models of the Python primitives it relies on (`pd.isna`,
  `isinstance(h, (int, float))`, `str.split("-")`, `int(str)`);
* the aggregation pipeline of `create_player_visualizations`
  (source lines 59-86 and 216-272): the `height_in` derived column, the
  global distribution summary, and the per-position
  `dropna → groupby → agg([mean, std]) → sort_values(mean, desc) →
  fillna(std, 0)` aggregate.

Raw cell values are modelled by the sum type `Raw` (null / float NaN /
numeric / text).  Machine floats are modelled by `ℚ` for statistics and by
`ℤ` for the integer heights; the standard deviation of a group is carried
as its square `svar` (the sample variance, a rational), so that
`std = Real.sqrt svar` and in particular `std = 0 ↔ svar = 0`.
Pandas' `groupby(sort=True)` orders group keys by the ascending
lexicographic order of their labels, modelled by the kernel-computable
comparison `strLtB`; the subsequent `sort_values('mean', ascending=False)`
is modelled by a stable insertion sort, which matches the behaviour of the
library sort at the small group counts this program produces.
-/

namespace EnhancedViz

/-- A raw cell value of the loaded table: Python `None`/missing, a float
`NaN`, a numeric value, or a string.  (`pd.read_csv` cells that hold
nothing become `NaN`; both are covered by `pd.isna`.) -/
inductive Raw where
  | null : Raw
  | nan : Raw
  | num : Int → Raw
  | str : String → Raw
deriving DecidableEq

/-- Model of `pd.isna h`: true exactly on `None` and float `NaN`. -/
def pd_isna : Raw → Bool
  | Raw.null => true
  | Raw.nan => true
  | Raw.num _ => false
  | Raw.str _ => false

/-- Model of `isinstance(h, (int, float))`: true on numeric values, and
also on `NaN`, which is a Python `float`. -/
def isNumber : Raw → Bool
  | Raw.null => false
  | Raw.nan => true
  | Raw.num _ => true
  | Raw.str _ => false

/-- The ASCII whitespace characters stripped by Python's `int()` / `float()`
string conversion. -/
def isPySpace (c : Char) : Bool :=
  c == ' ' || c == '\t' || c == '\n' || c == '\r' || c == '\x0b' || c == '\x0c'

/-- Numeric value of a decimal digit character. -/
def digitVal (c : Char) : Nat := c.toNat - 48

/-- Tail of Python's decimal-literal scan, `acc` holding the value of the
digits already consumed.  A single `_` may separate two digits
(`int("1_0") = 10`), but may not be doubled, leading, or trailing. -/
def digitsCore (acc : Nat) : List Char → Option Nat
  | [] => some acc
  | c :: cs =>
    if c.isDigit then digitsCore (10 * acc + digitVal c) cs
    else if c = '_' then
      match cs with
      | [] => none
      | d :: ds => if d.isDigit then digitsCore (10 * acc + digitVal d) ds else none
    else none

/-- Python's unsigned decimal-literal scan: at least one digit, which may
not be an underscore. -/
def digitsNat : List Char → Option Nat
  | [] => none
  | c :: cs => if c.isDigit then digitsCore (digitVal c) cs else none

/-- Strip leading and trailing whitespace, as Python's `int()`/`float()` do
before parsing. -/
def pyStrip (l : List Char) : List Char :=
  ((l.dropWhile isPySpace).reverse.dropWhile isPySpace).reverse

/-- Optional sign followed by an unsigned decimal literal. -/
def pySigned : List Char → Option Int
  | [] => none
  | c :: cs =>
    if c = '+' then (digitsNat cs).map (fun n => (n : Int))
    else if c = '-' then (digitsNat cs).map (fun n => -(n : Int))
    else (digitsNat (c :: cs)).map (fun n => (n : Int))

/-- Model of Python `int(s)` on a string: `some` of the parsed integer, or
`none` when `int` would raise `ValueError` (the `except` path of the
source). -/
def pyInt (s : String) : Option Int := pySigned (pyStrip s.data)

/-- Worker for `str.split("-")`: `acc` holds the characters of the current
field in reverse. -/
def splitDashCore : List Char → List Char → List (List Char)
  | [], acc => [acc.reverse]
  | c :: cs, acc =>
    if c = '-' then acc.reverse :: splitDashCore cs [] else splitDashCore cs (c :: acc)

/-- Model of Python `h.split("-")`: the maximal `'-'`-free fields of `h`,
in order; splitting on every occurrence of the separator. -/
def splitDash (s : String) : List String := (splitDashCore s.data []).map List.asString

/-- The height normalizer of the source (lines 30-43):

```
def height_to_inches(h):
    if pd.isna(h):
        return None
    if isinstance(h, (int, float)):
        return h
    h = str(h)
    if "-" not in h:
        return None
    try:
        feet, inches = h.split("-")
        return int(feet) * 12 + int(inches)
    except Exception:
        return None
```

The four `Raw` cases are matched in the order of the source's guards
(`pd.isna` first, then `isinstance`, then the string logic); `str(h)` is
the identity on the remaining (string) case.  The two-element match on
`splitDash` models the `feet, inches = ...` destructuring, whose failure
(any other number of fields) is caught by the `except`, as is a failing
`int(...)` parse. -/
def combineFeetInches : Option Int → Option Int → Option Int
  | some a, some b => some (a * 12 + b)
  | _, _ => none

/-- The body of the `try` block: destructure the split into exactly two
fields (any other shape raises and is caught → `none`), parse both fields
with `int(...)` (a failing parse raises and is caught → `none`), and
combine as `feet * 12 + inches`. -/
def parsePair : List String → Option Int
  | [f, i] => combineFeetInches (pyInt f) (pyInt i)
  | _ => none

def height_to_inches : Raw → Option Int
  | Raw.null => none
  | Raw.nan => none
  | Raw.num n => some n
  | Raw.str s => if '-' ∈ s.data then parsePair (splitDash s) else none

/-- Re-embedding of a normalizer result as a raw cell, for the idempotence
claim: a numeric result is a numeric cell, a missing result is a missing
cell. -/
def ofResult : Option Int → Raw
  | some n => Raw.num n
  | none => Raw.null

/-! ### Elementary facts about `splitDash` and `pyInt` -/

theorem splitDashCore_of_not_mem (xs : List Char) :
    ∀ acc : List Char, '-' ∉ xs → splitDashCore xs acc = [acc.reverse ++ xs] := by
  induction xs with
  | nil => intro acc _; simp [splitDashCore]
  | cons c cs ih =>
    intro acc hno
    have hc : ¬(c = '-') := fun h => hno (h ▸ List.mem_cons_self c cs)
    have hcs : '-' ∉ cs := fun h => hno (List.mem_cons_of_mem c h)
    simp only [splitDashCore, if_neg hc]
    rw [ih (c :: acc) hcs]
    simp

theorem splitDashCore_append (xs : List Char) :
    ∀ acc ys : List Char, '-' ∉ xs →
      splitDashCore (xs ++ '-' :: ys) acc =
        (acc.reverse ++ xs) :: splitDashCore ys [] := by
  induction xs with
  | nil => intro acc ys _; simp [splitDashCore]
  | cons c cs ih =>
    intro acc ys hno
    have hc : ¬(c = '-') := fun h => hno (h ▸ List.mem_cons_self c cs)
    have hcs : '-' ∉ cs := fun h => hno (List.mem_cons_of_mem c h)
    simp only [List.cons_append, splitDashCore, List.append_eq, if_neg hc]
    rw [ih (c :: acc) ys hcs]
    simp

/-- A string with no `'-'` splits into the single field holding the whole
string. -/
theorem splitDash_of_not_mem {s : String} (h : '-' ∉ s.data) :
    splitDash s = [s.data.asString] := by
  simp [splitDash, splitDashCore_of_not_mem s.data [] h]

/-- A string that splits into exactly two fields does contain the
separator. -/
theorem contains_dash_of_splitDash_pair {s : String} {f i : String}
    (h : splitDash s = [f, i]) : '-' ∈ s.data := by
  by_contra hno
  rw [splitDash_of_not_mem hno] at h
  simp at h

/-- Every field produced by `splitDashCore` is free of the separator. -/
theorem not_mem_of_mem_splitDashCore (xs : List Char) :
    ∀ acc p, '-' ∉ acc → p ∈ splitDashCore xs acc → '-' ∉ p := by
  induction xs with
  | nil =>
    intro acc p hacc hp
    simp only [splitDashCore, List.mem_singleton] at hp
    subst hp
    simpa using hacc
  | cons c cs ih =>
    intro acc p hacc hp
    by_cases hc : c = '-'
    · subst hc
      have hrw : splitDashCore ('-' :: cs) acc = acc.reverse :: splitDashCore cs [] := by
        simp [splitDashCore]
      rw [hrw, List.mem_cons] at hp
      rcases hp with hp | hp
      · subst hp; simpa using hacc
      · exact ih [] p (by simp) hp
    · simp only [splitDashCore, if_neg hc] at hp
      refine ih (c :: acc) p ?_ hp
      intro hmem
      rcases List.mem_cons.mp hmem with h | h
      · exact hc h.symm
      · exact hacc h

/-- Every field produced by `splitDash` is free of the separator. -/
theorem splitDash_field_no_dash {s p : String} (hp : p ∈ splitDash s) :
    '-' ∉ p.data := by
  rcases List.mem_map.mp hp with ⟨l, hl, rfl⟩
  have := not_mem_of_mem_splitDashCore s.data [] l (by simp) hl
  simpa [List.asString] using this

theorem mem_pyStrip_subset {l : List Char} {c : Char} (h : c ∈ pyStrip l) : c ∈ l := by
  unfold pyStrip at h
  rw [List.mem_reverse] at h
  have h1 : c ∈ (l.dropWhile isPySpace).reverse :=
    (List.dropWhile_sublist isPySpace).subset h
  rw [List.mem_reverse] at h1
  exact (List.dropWhile_sublist isPySpace).subset h1

/-- A sign-free scan yields a natural number, hence a non-negative
integer. -/
theorem pySigned_nonneg {l : List Char} (hno : '-' ∉ l) :
    ∀ v : Int, pySigned l = some v → 0 ≤ v := by
  intro v hv
  cases l with
  | nil => simp [pySigned] at hv
  | cons c cs =>
    have hc : ¬(c = '-') := fun h => hno (h ▸ List.mem_cons_self c cs)
    by_cases hplus : c = '+'
    · subst hplus
      rw [pySigned, if_pos rfl] at hv
      rcases hd : digitsNat cs with _ | n
      · rw [hd] at hv; simp at hv
      · rw [hd] at hv
        simp at hv
        omega
    · rw [pySigned, if_neg hplus, if_neg hc] at hv
      rcases hd : digitsNat (c :: cs) with _ | n
      · rw [hd] at hv; simp at hv
      · rw [hd] at hv
        simp at hv
        omega

/-- `int(...)` applied to a string with no `'-'` cannot return a negative
value. -/
theorem pyInt_nonneg_of_no_dash {p : String} (hno : '-' ∉ p.data) :
    ∀ v : Int, pyInt p = some v → 0 ≤ v := by
  intro v hv
  exact pySigned_nonneg (fun h => hno (mem_pyStrip_subset h)) v hv

/-- Rewriting form of the string case of the normalizer. -/
theorem height_to_inches_str (s : String) :
    height_to_inches (Raw.str s) =
      if '-' ∈ s.data then parsePair (splitDash s) else none := rfl

theorem combineFeetInches_left_none (o : Option Int) :
    combineFeetInches none o = none := rfl

theorem combineFeetInches_right_none (o : Option Int) :
    combineFeetInches o none = none := by
  cases o <;> rfl

theorem parsePair_of_length_ne_two {l : List String} (h : l.length ≠ 2) :
    parsePair l = none := by
  rcases l with _ | ⟨f, _ | ⟨i, _ | ⟨x, t⟩⟩⟩
  · rfl
  · rfl
  · exact absurd rfl h
  · rfl

/-- A successful parse of a string height is non-negative: both fields of
the split are `'-'`-free, so neither `int(...)` can produce a negative
value, and `feet * 12 + inches` is then non-negative. -/
theorem h2i_str_nonneg {s : String} {v : ℤ}
    (h : height_to_inches (Raw.str s) = some v) : 0 ≤ v := by
  by_cases hmem : '-' ∈ s.data
  · rw [height_to_inches_str, if_pos hmem] at h
    rcases hsp : splitDash s with _ | ⟨f, _ | ⟨i, _ | ⟨x, l⟩⟩⟩
    · rw [hsp] at h
      simp [parsePair] at h
    · rw [hsp] at h
      simp [parsePair] at h
    · rw [hsp] at h
      have hf : '-' ∉ f.data :=
        splitDash_field_no_dash (s := s) (by rw [hsp]; simp)
      have hi : '-' ∉ i.data :=
        splitDash_field_no_dash (s := s) (by rw [hsp]; simp)
      rw [parsePair] at h
      rcases ha : pyInt f with _ | a
      · rw [ha, combineFeetInches_left_none] at h
        simp at h
      · rcases hb : pyInt i with _ | b
        · rw [hb, combineFeetInches_right_none] at h
          simp at h
        · rw [ha, hb, combineFeetInches] at h
          have hva : 0 ≤ a := pyInt_nonneg_of_no_dash hf a ha
          have hvb : 0 ≤ b := pyInt_nonneg_of_no_dash hi b hb
          have hv : a * 12 + b = v := by injection h
          omega
    · rw [hsp] at h
      simp [parsePair] at h
  · rw [height_to_inches_str, if_neg hmem] at h
    simp at h

/-! ### Claims about the normalizer alone -/

/-- **C1.** Totality and the missing-marker contract of the normalizer: on
every raw input it returns either a numeric value or the missing marker
(`Option ℤ` by construction — the Lean function is total, modelling
"never raises"), and each malformed family yields missing: null/absent
(and `NaN`, which `pd.isna` also covers), separator-free strings such as
`"N/A"`, and separator strings whose fields fail integer parsing, such as
`"abc-def"`.  No malformed input is silently mapped to a fabricated `0`:
each is mapped to `none`. -/
theorem height_to_inches_total_never_fabricates :
    height_to_inches Raw.null = none ∧
    height_to_inches Raw.nan = none ∧
    (∀ s : String, '-' ∉ s.data → height_to_inches (Raw.str s) = none) ∧
    (∀ s f i : String, splitDash s = [f, i] →
      (pyInt f = none ∨ pyInt i = none) → height_to_inches (Raw.str s) = none) ∧
    height_to_inches (Raw.str "N/A") = none ∧
    height_to_inches (Raw.str "abc-def") = none := by
  refine ⟨rfl, rfl, ?_, ?_, by decide, by decide⟩
  · intro s hno
    simp [height_to_inches, hno]
  · intro s f i hsp hbad
    have hmem : '-' ∈ s.data := contains_dash_of_splitDash_pair hsp
    rw [height_to_inches_str, if_pos hmem, hsp, parsePair]
    rcases hbad with hb | hb
    · rw [hb, combineFeetInches_left_none]
    · rw [hb, combineFeetInches_right_none]

/-- Witness for C1: the separator-free-input clause evaluated at the
concrete string `"xy"`. -/
theorem height_to_inches_total_never_fabricates_witness :
    height_to_inches (Raw.str "xy") = none :=
  height_to_inches_total_never_fabricates.2.2.1 "xy" (by decide)

/-- **C8.** The normalizer returns numeric inputs unchanged, and it is
idempotent: re-applying it to any of its own outputs (a numeric value
re-entering as a numeric cell, the missing marker as a missing cell) is a
no-op.  Purity is inherent in the embedding: `height_to_inches` is a Lean
function of its argument alone, with no state. -/
theorem height_to_inches_numeric_id_idempotent :
    (∀ n : ℤ, height_to_inches (Raw.num n) = some n) ∧
    (∀ h : Raw,
      height_to_inches (ofResult (height_to_inches h)) = height_to_inches h) := by
  refine ⟨fun n => rfl, fun h => ?_⟩
  rcases hr : height_to_inches h with _ | v <;> rfl

/-- **C9.** A float `NaN` is numeric (`isinstance(h, (int, float))` holds),
yet `pd.isna` also holds for it and that check runs first, so the
normalizer classifies `NaN` as absent and returns the missing marker
rather than passing the value through. -/
theorem nan_classified_missing :
    pd_isna Raw.nan = true ∧ isNumber Raw.nan = true ∧
      height_to_inches Raw.nan = none :=
  ⟨rfl, rfl, rfl⟩

/-- **C10.** Strings containing the separator but not splitting into
exactly two fields (e.g. `"6-6-6"`), and two-field splits whose field
fails integer parsing (e.g. the empty first field of `"-6"`), all map to
the missing marker; the failure is absorbed inside the function (the
`except` branch), never propagated. -/
theorem separator_failures_yield_missing :
    (∀ s : String, '-' ∈ s.data → (splitDash s).length ≠ 2 →
      height_to_inches (Raw.str s) = none) ∧
    (∀ s f i : String, splitDash s = [f, i] →
      (pyInt f = none ∨ pyInt i = none) → height_to_inches (Raw.str s) = none) ∧
    height_to_inches (Raw.str "6-6-6") = none ∧
    height_to_inches (Raw.str "-6") = none := by
  refine ⟨?_, ?_, by decide, by decide⟩
  · intro s hmem hlen
    rw [height_to_inches_str, if_pos hmem]
    exact parsePair_of_length_ne_two hlen
  · intro s f i hsp hbad
    have hmem : '-' ∈ s.data := contains_dash_of_splitDash_pair hsp
    rw [height_to_inches_str, if_pos hmem, hsp, parsePair]
    rcases hbad with hb | hb
    · rw [hb, combineFeetInches_left_none]
    · rw [hb, combineFeetInches_right_none]

/-- Witness for C10: the malformed-split clause evaluated at `"6-6-6"`,
which has three fields. -/
theorem separator_failures_yield_missing_witness :
    height_to_inches (Raw.str "6-6-6") = none :=
  separator_failures_yield_missing.1 "6-6-6" (by decide) (by decide)

/-- **C4, counterexample.** As stated, the claim is false: the normalizer
passes numeric inputs through unchanged, so a negative numeric height
yields a negative `height_in`, which is neither a non-negative integer
nor absent. -/
theorem height_in_nonneg_counterexample :
    height_to_inches (Raw.num (-1)) = some (-1) ∧ ¬(0 ≤ (-1 : ℤ)) := by decide

/-- **C4, amended.** For every row, `height_in` is either absent or an
integer — never any other value and never a silently substituted default:
parsed string heights are always non-negative, while raw numeric heights
are passed through unchanged (so only a negative numeric *input* can make
`height_in` negative). -/
theorem height_in_int_or_missing (h : Raw) :
    height_to_inches h = none ∨
      ∃ n : ℤ, height_to_inches h = some n ∧
        (∀ s : String, h = Raw.str s → 0 ≤ n) := by
  cases h with
  | null => exact Or.inl rfl
  | nan => exact Or.inl rfl
  | num n => exact Or.inr ⟨n, rfl, fun s hs => nomatch hs⟩
  | str s =>
    rcases hr : height_to_inches (Raw.str s) with _ | v
    · exact Or.inl rfl
    · exact Or.inr ⟨v, rfl, fun t _ => h2i_str_nonneg hr⟩

/-- Witness for C4 (amended): the disjunction evaluated at the string cell
`"6-11"`. -/
theorem height_in_int_or_missing_witness :
    height_to_inches (Raw.str "6-11") = none ∨
      ∃ n : ℤ, height_to_inches (Raw.str "6-11") = some n ∧
        (∀ s : String, Raw.str "6-11" = Raw.str s → 0 ≤ n) :=
  height_in_int_or_missing (Raw.str "6-11")

/-! ### Decimal representations parse back through `pyInt` -/

/-- Decimal value of a digit string, most significant digit first, folded
onto an accumulator. -/
def natValFrom (acc : Nat) (l : List Char) : Nat :=
  l.foldl (fun a c => 10 * a + digitVal c) acc

theorem natValFrom_append (acc : Nat) (l l2 : List Char) :
    natValFrom acc (l ++ l2) = natValFrom (natValFrom acc l) l2 := by
  simp [natValFrom, List.foldl_append]

theorem digitChar_isDigit {m : Nat} (h : m < 10) : (Nat.digitChar m).isDigit = true := by
  interval_cases m <;> decide

theorem digitVal_digitChar {m : Nat} (h : m < 10) : digitVal (Nat.digitChar m) = m := by
  interval_cases m <;> decide

theorem toDigitsCore_append10 :
    ∀ (fuel n : Nat) (ds : List Char),
      Nat.toDigitsCore 10 fuel n ds = Nat.toDigitsCore 10 fuel n [] ++ ds := by
  intro fuel
  induction fuel with
  | zero => intro n ds; simp [Nat.toDigitsCore]
  | succ f ih =>
    intro n ds
    simp only [Nat.toDigitsCore]
    by_cases h : n / 10 = 0
    · simp [h]
    · simp only [if_neg h]
      rw [ih (n / 10) (Nat.digitChar (n % 10) :: ds),
        ih (n / 10) [Nat.digitChar (n % 10)]]
      simp

theorem toDigitsCore_fuel_irrel :
    ∀ (fuel fuel' n : Nat) (ds : List Char), n < fuel → n < fuel' →
      Nat.toDigitsCore 10 fuel n ds = Nat.toDigitsCore 10 fuel' n ds := by
  intro fuel
  induction fuel with
  | zero => intro fuel' n ds h; exact absurd h (Nat.not_lt_zero n)
  | succ f ih =>
    intro fuel' n ds h h'
    cases fuel' with
    | zero => exact absurd h' (Nat.not_lt_zero n)
    | succ g =>
      simp only [Nat.toDigitsCore]
      by_cases h0 : n / 10 = 0
      · simp [h0]
      · simp only [if_neg h0]
        exact ih g (n / 10) _ (by omega) (by omega)

theorem toDigits_lt10 {n : Nat} (h : n < 10) :
    Nat.toDigits 10 n = [Nat.digitChar n] := by
  have h0 : n / 10 = 0 := by omega
  simp only [Nat.toDigits, Nat.toDigitsCore, h0, if_pos]
  rw [Nat.mod_eq_of_lt h]

theorem toDigits_ge10 {n : Nat} (h : 10 ≤ n) :
    Nat.toDigits 10 n = Nat.toDigits 10 (n / 10) ++ [Nat.digitChar (n % 10)] := by
  have h0 : ¬(n / 10 = 0) := by omega
  simp only [Nat.toDigits, Nat.toDigitsCore, if_neg h0]
  rw [toDigitsCore_fuel_irrel n (n / 10 + 1) (n / 10) _ (by omega) (by omega)]
  exact toDigitsCore_append10 (n / 10 + 1) (n / 10) [Nat.digitChar (n % 10)]

theorem natValFrom_toDigits (n : Nat) : natValFrom 0 (Nat.toDigits 10 n) = n := by
  induction n using Nat.strong_induction_on with
  | _ n ih =>
    by_cases h : n < 10
    · rw [toDigits_lt10 h]
      show 10 * 0 + digitVal (Nat.digitChar n) = n
      rw [digitVal_digitChar h]
      omega
    · push_neg at h
      rw [toDigits_ge10 h, natValFrom_append,
        ih (n / 10) (by omega)]
      show 10 * (n / 10) + digitVal (Nat.digitChar (n % 10)) = n
      rw [digitVal_digitChar (by omega)]
      omega

theorem toDigits_all_digits (n : Nat) :
    ∀ c ∈ Nat.toDigits 10 n, c.isDigit = true := by
  induction n using Nat.strong_induction_on with
  | _ n ih =>
    by_cases h : n < 10
    · rw [toDigits_lt10 h]
      intro c hc
      rw [List.mem_singleton] at hc
      subst hc
      exact digitChar_isDigit h
    · push_neg at h
      rw [toDigits_ge10 h]
      intro c hc
      rcases List.mem_append.mp hc with hc | hc
      · exact ih (n / 10) (by omega) c hc
      · rw [List.mem_singleton] at hc
        subst hc
        exact digitChar_isDigit (by omega)

theorem toDigits_ne_nil (n : Nat) : Nat.toDigits 10 n ≠ [] := by
  by_cases h : n < 10
  · rw [toDigits_lt10 h]; simp
  · push_neg at h; rw [toDigits_ge10 h]; simp

theorem isPySpace_false_of_isDigit {c : Char} (h : c.isDigit = true) :
    isPySpace c = false := by
  cases hb : isPySpace c
  · rfl
  · exfalso
    simp [isPySpace] at hb
    rcases hb with ((((rfl | rfl) | rfl) | rfl) | rfl) | rfl <;> exact absurd h (by decide)

theorem ne_plus_of_isDigit {c : Char} (h : c.isDigit = true) : ¬(c = '+') := by
  intro he; subst he; exact absurd h (by decide)

theorem ne_dash_of_isDigit {c : Char} (h : c.isDigit = true) : ¬(c = '-') := by
  intro he; subst he; exact absurd h (by decide)

theorem dropWhile_eq_self_of_no_space {p : Char → Bool} {l : List Char}
    (h : ∀ c ∈ l, p c = false) : l.dropWhile p = l := by
  cases l with
  | nil => rfl
  | cons c cs =>
    rw [List.dropWhile_cons]
    simp [h c (List.mem_cons_self c cs)]

theorem pyStrip_of_digits {l : List Char} (h : ∀ c ∈ l, c.isDigit = true) :
    pyStrip l = l := by
  have h1 : ∀ c ∈ l, isPySpace c = false :=
    fun c hc => isPySpace_false_of_isDigit (h c hc)
  unfold pyStrip
  rw [dropWhile_eq_self_of_no_space h1]
  rw [dropWhile_eq_self_of_no_space (fun c hc => h1 c (List.mem_reverse.mp hc))]
  exact List.reverse_reverse l

theorem digitsCore_of_digits :
    ∀ (l : List Char) (acc : Nat), (∀ c ∈ l, c.isDigit = true) →
      digitsCore acc l = some (natValFrom acc l) := by
  intro l
  induction l with
  | nil => intro acc _; rfl
  | cons c cs ih =>
    intro acc h
    have hc := h c (List.mem_cons_self c cs)
    rw [digitsCore.eq_def]
    simp only [hc, if_true]
    exact ih _ (fun d hd => h d (List.mem_cons_of_mem c hd))

/-- `int(...)` on a non-empty all-digit string returns its decimal value. -/
theorem pyInt_of_digits {l : List Char} (hne : l ≠ []) (h : ∀ c ∈ l, c.isDigit = true) :
    pyInt (List.asString l) = some ((natValFrom 0 l : Nat) : Int) := by
  have hdata : (List.asString l).data = l := rfl
  rw [pyInt, hdata, pyStrip_of_digits h]
  cases l with
  | nil => exact absurd rfl hne
  | cons c cs =>
    have hc := h c (List.mem_cons_self c cs)
    rw [pySigned, if_neg (ne_plus_of_isDigit hc), if_neg (ne_dash_of_isDigit hc)]
    rw [digitsNat, if_pos hc]
    rw [digitsCore_of_digits cs _ (fun d hd => h d (List.mem_cons_of_mem c hd))]
    simp [natValFrom]

/-- The decimal representation printed by `Nat.repr` parses back to the
same number through the model of Python `int`. -/
theorem pyInt_repr (n : Nat) : pyInt (Nat.repr n) = some (n : Int) := by
  have hrepr : Nat.repr n = List.asString (Nat.toDigits 10 n) := rfl
  rw [hrepr, pyInt_of_digits (toDigits_ne_nil n) (toDigits_all_digits n),
    natValFrom_toDigits n]

/-- **C2.** Every well-formed feet-inches string `"F-I"` — `F` and `I` the
decimal representations of naturals with `I < 12` — normalizes to
`F * 12 + I`; in particular `"6-6" ↦ 78` and `"7-0" ↦ 84`.  (The
hypothesis `I < 12` delimits the well-formed inputs of the claim; the
computation itself does not depend on it.) -/
theorem wellformed_feet_inches_parse (F I : Nat) (hI : I < 12) :
    height_to_inches (Raw.str (Nat.repr F ++ "-" ++ Nat.repr I)) =
      some ((F : Int) * 12 + (I : Int)) ∧
    height_to_inches (Raw.str "6-6") = some 78 ∧
    height_to_inches (Raw.str "7-0") = some 84 := by
  refine ⟨?_, by decide, by decide⟩
  have hdata : (Nat.repr F ++ "-" ++ Nat.repr I).data
      = Nat.toDigits 10 F ++ '-' :: Nat.toDigits 10 I := by
    rw [String.data_append, String.data_append]
    simp [Nat.repr, List.asString]
  have hno_f : '-' ∉ Nat.toDigits 10 F :=
    fun hm => ne_dash_of_isDigit (toDigits_all_digits F '-' hm) rfl
  have hno_i : '-' ∉ Nat.toDigits 10 I :=
    fun hm => ne_dash_of_isDigit (toDigits_all_digits I '-' hm) rfl
  have hmem : '-' ∈ (Nat.repr F ++ "-" ++ Nat.repr I).data := by
    rw [hdata]
    exact List.mem_append_right _ (List.mem_cons_self _ _)
  have hsp : splitDash (Nat.repr F ++ "-" ++ Nat.repr I)
      = [List.asString (Nat.toDigits 10 F), List.asString (Nat.toDigits 10 I)] := by
    unfold splitDash
    rw [hdata, splitDashCore_append _ [] _ hno_f,
      splitDashCore_of_not_mem _ [] hno_i]
    simp
  rw [height_to_inches_str, if_pos hmem, hsp, parsePair]
  rw [pyInt_of_digits (toDigits_ne_nil F) (toDigits_all_digits F),
    natValFrom_toDigits,
    pyInt_of_digits (toDigits_ne_nil I) (toDigits_all_digits I),
    natValFrom_toDigits]
  rfl

/-- Witness for C2: the general clause instantiated at `F = 6`, `I = 6`,
the spec's own example `"6-6" ↦ 78`. -/
theorem wellformed_feet_inches_parse_witness :
    height_to_inches (Raw.str (Nat.repr 6 ++ "-" ++ Nat.repr 6)) =
      some ((6 : Int) * 12 + (6 : Int)) :=
  (wellformed_feet_inches_parse 6 6 (by decide)).1

example : height_to_inches (Raw.str "6-6") = some 78 := by decide
example : height_to_inches (Raw.str "7-0") = some 84 := by decide
example : height_to_inches (Raw.str "6-9") = some 81 := by decide
example : height_to_inches (Raw.str "N/A") = none := by decide
example : height_to_inches (Raw.str "abc-def") = none := by decide
example : height_to_inches (Raw.str "6-6-6") = none := by decide
example : height_to_inches (Raw.str "-6") = none := by decide
example : height_to_inches (Raw.str " 6 - 2 ") = some 74 := by decide
/-! ### The aggregation pipeline -/

/-- A row of the loaded player table, with the three columns the claims
concern (`height`, `weight`, `position`).  The `team.full_name` column
feeds only the per-team frequency chart, which no claim mentions, so it
is not modelled. -/
structure Row where
  height : Raw
  weight : Raw
  position : String
deriving DecidableEq

/-- The derived column `df_players["height_in"] =
df_players["height"].apply(height_to_inches)` (source line 62), at one
row. -/
def height_in (r : Row) : Option Int := height_to_inches r.height

/-- Unsigned finite decimal numerals accepted by the float parser:
`digits`, `digits.`, `digits.digits`, `.digits`. -/
def pyFloatUnsigned (l : List Char) : Option ℚ :=
  let ip := l.takeWhile Char.isDigit
  let rest := l.dropWhile Char.isDigit
  match rest with
  | [] => if ip = [] then none else some ((natValFrom 0 ip : Nat) : ℚ)
  | '.' :: rest2 =>
    let fp := rest2.takeWhile Char.isDigit
    let rest3 := rest2.dropWhile Char.isDigit
    if rest3 = [] then
      if ip = [] then
        if fp = [] then none
        else some (((natValFrom 0 fp : Nat) : ℚ) / (10 : ℚ) ^ fp.length)
      else some (((natValFrom 0 ip : Nat) : ℚ) +
        ((natValFrom 0 fp : Nat) : ℚ) / (10 : ℚ) ^ fp.length)
    else none
  | _ => none

def pyFloatSigned : List Char → Option ℚ
  | [] => none
  | c :: cs =>
    if c = '+' then pyFloatUnsigned cs
    else if c = '-' then (pyFloatUnsigned cs).map (fun q => -q)
    else pyFloatUnsigned (c :: cs)

/-- Model of `pd.to_numeric(x, errors="coerce")` (source line 63) at one
cell: numeric values pass through, strings parse as finite decimal
numerals, anything unparsable coerces to missing.  Scientific notation
and the textual `inf`/`nan` spellings are not modelled; no claim
exercises them. -/
def to_numeric : Raw → Option ℚ
  | Raw.null => none
  | Raw.nan => none
  | Raw.num n => some ((n : Int) : ℚ)
  | Raw.str s => pyFloatSigned (pyStrip s.data)

/-- The `height_in` column as a rational (machine floats are modelled by
`ℚ`), for feeding the statistics. -/
def heightValQ (r : Row) : Option ℚ := (height_in r).map (fun n => ((n : Int) : ℚ))

/-- The coerced `weight` column. -/
def weightVal (r : Row) : Option ℚ := to_numeric r.weight

def listMean (xs : List ℚ) : ℚ := xs.sum / (xs.length : ℚ)

/-- Sample variance (`ddof = 1`, pandas' default for `std`): `none` when
there are fewer than two observations — pandas' `std` is `NaN` there —
otherwise `Σ (x - mean)² / (n - 1)`.  This is the square of the standard
deviation the source reports. -/
def sampleVar (xs : List ℚ) : Option ℚ :=
  if xs.length ≤ 1 then none
  else some ((xs.map (fun x => (x - listMean xs) ^ 2)).sum / ((xs.length - 1 : Nat) : ℚ))

/-- One record of a per-group aggregate: group label, number of
contributing rows, mean of the value column over the group, and `svar`,
the square of the reported standard deviation after the source's
`fillna(0)` — the reported `std` is `Real.sqrt svar`. -/
structure AggRow where
  label : String
  count : Nat
  mean : ℚ
  svar : ℚ
deriving DecidableEq

/-- Insert `x` before the first element `y` with `lt x y`; folding this
left-to-right over a list is a stable sort (ties and unrelated elements
keep their first-seen relative order). -/
def insOrd {α : Type} (lt : α → α → Bool) (x : α) : List α → List α
  | [] => [x]
  | y :: ys => if lt x y then x :: y :: ys else y :: insOrd lt x ys

/-- Stable sort by the strict comparison `lt`. -/
def sortOrd {α : Type} (lt : α → α → Bool) (l : List α) : List α :=
  l.foldl (fun acc x => insOrd lt x acc) []

/-- Lexicographic comparison of character lists by code point: the
ascending order `pandas` `groupby(sort=True)` uses for string group
keys. -/
def strLtB : List Char → List Char → Bool
  | [], [] => false
  | [], _ :: _ => true
  | _ :: _, [] => false
  | a :: as, b :: bs =>
    if a.toNat < b.toNat then true
    else if b.toNat < a.toNat then false
    else strLtB as bs

def strLt (a b : String) : Bool := strLtB a.data b.data

/-- Distinct group keys of the filtered rows, in ascending label order —
the order `groupby('position', sort=True)` produces. -/
def groupKeys (kept : List Row) : List String :=
  sortOrd strLt (kept.map Row.position).dedup

/-- One invocation of the aggregation pipeline (source lines 218-224 for
height, 265-272 for weight):

```
(df_players.dropna(subset=[col]).groupby('position')[col]
   .agg(['mean', 'std']))
   .sort_values('mean', ascending=False);  std.fillna(0)
```

drop the rows whose value column is missing, group the remainder by
position (ascending label order), record count, mean and squared
`fillna(0)` standard deviation per group, and stably sort the records by
descending mean. -/
def groupAgg (value : Row → Option ℚ) (rows : List Row) : List AggRow :=
  let kept := rows.filter (fun r => (value r).isSome)
  let mk := fun k : String =>
    let vals := kept.filterMap (fun r => if r.position = k then value r else none)
    AggRow.mk k vals.length (listMean vals) ((sampleVar vals).getD 0)
  sortOrd (fun a b : AggRow => decide (b.mean < a.mean)) ((groupKeys kept).map mk)

/-- Aggregate 5: mean/std of `height_in` by position. -/
def heightByPos (rows : List Row) : List AggRow := groupAgg heightValQ rows

/-- Aggregate 6: mean/std of coerced `weight` by position. -/
def weightByPos (rows : List Row) : List AggRow := groupAgg weightVal rows

/-- `heights = df_players["height_in"].dropna()` (source line 69). -/
def heightsList (rows : List Row) : List Int := rows.filterMap height_in

/-- The fields of the global height summary the end-to-end claim checks. -/
structure DistSummary where
  mean : Option ℚ
  min : Option Int
  max : Option Int
deriving DecidableEq

def listMinI : List Int → Option Int
  | [] => none
  | x :: xs => some (xs.foldl Min.min x)

def listMaxI : List Int → Option Int
  | [] => none
  | x :: xs => some (xs.foldl Max.max x)

/-- The global height summary (source lines 69-86): mean, min and max of
the non-missing `height_in` values (`none` for the empty series, where
pandas reports NaN). -/
def heightSummary (rows : List Row) : DistSummary :=
  let hs := heightsList rows
  { mean :=
      if hs.length = 0 then none
      else some ((hs.map (fun n => ((n : Int) : ℚ))).sum / (hs.length : ℚ))
    min := listMinI hs
    max := listMaxI hs }

/-- First-seen order of the group labels in the table, used to state the
tie-break the specification asserts. -/
def firstSeen : List String → List String
  | [] => []
  | x :: xs => x :: (firstSeen xs).filter (fun y => y ≠ x)

def firstSeenLabels (rows : List Row) : List String := firstSeen (rows.map Row.position)

/-- The three-row table of the end-to-end scenario. -/
def table3 : List Row :=
  [ { height := Raw.str "6-6", weight := Raw.str "200", position := "G" },
    { height := Raw.str "7-0", weight := Raw.str "250", position := "C" },
    { height := Raw.str "6-9", weight := Raw.str "220", position := "F" } ]

example : heightsList table3 = [78, 84, 81] := by decide
example : to_numeric (Raw.str "200") = some 200 := by decide
example : to_numeric (Raw.str "x2") = none := by decide

example : to_numeric (Raw.str "2.5") = some (5 / 2) := by
  have h1 : pyStrip "2.5".data = ['2', '.', '5'] := by decide
  have h2 : List.takeWhile Char.isDigit ['2', '.', '5'] = ['2'] := by decide
  have h3 : List.dropWhile Char.isDigit ['2', '.', '5'] = ['.', '5'] := by decide
  have h4 : List.takeWhile Char.isDigit ['5'] = ['5'] := by decide
  have h5 : List.dropWhile Char.isDigit ['5'] = [] := by decide
  have h6 : natValFrom 0 ['2'] = 2 := by decide
  have h7 : natValFrom 0 ['5'] = 5 := by decide
  simp only [to_numeric, pyFloatSigned, h1, if_neg (show ¬('2' = '+') by decide),
    if_neg (show ¬('2' = '-') by decide), pyFloatUnsigned, h2, h3, h4, h5, h6, h7]
  norm_num

/-! ### The stable sort: permutation and order lemmas -/

theorem mem_insOrd {α : Type} {lt : α → α → Bool} {x z : α} :
    ∀ {l : List α}, z ∈ insOrd lt x l → z = x ∨ z ∈ l := by
  intro l
  induction l with
  | nil =>
    intro h
    simp [insOrd] at h
    exact Or.inl h
  | cons y ys ih =>
    intro h
    rw [insOrd] at h
    by_cases hlt : lt x y
    · rw [if_pos hlt] at h
      rcases List.mem_cons.mp h with h | h
      · exact Or.inl h
      · exact Or.inr h
    · rw [if_neg hlt] at h
      rcases List.mem_cons.mp h with h | h
      · exact Or.inr (h ▸ List.mem_cons_self y ys)
      · rcases ih h with h | h
        · exact Or.inl h
        · exact Or.inr (List.mem_cons_of_mem y h)

theorem insOrd_perm {α : Type} (lt : α → α → Bool) (x : α) :
    ∀ l : List α, (insOrd lt x l).Perm (x :: l) := by
  intro l
  induction l with
  | nil => simp [insOrd]
  | cons y ys ih =>
    rw [insOrd]
    by_cases hlt : lt x y
    · rw [if_pos hlt]
    · rw [if_neg hlt]
      exact (List.Perm.cons y ih).trans (List.Perm.swap x y ys)

theorem foldl_insOrd_perm {α : Type} (lt : α → α → Bool) :
    ∀ (l acc : List α),
      (l.foldl (fun acc x => insOrd lt x acc) acc).Perm (acc ++ l) := by
  intro l
  induction l with
  | nil => intro acc; simp
  | cons x xs ih =>
    intro acc
    rw [List.foldl_cons]
    refine (ih (insOrd lt x acc)).trans ?_
    refine (List.Perm.append_right xs (insOrd_perm lt x acc)).trans ?_
    exact List.perm_middle.symm

theorem sortOrd_perm {α : Type} (lt : α → α → Bool) (l : List α) :
    (sortOrd lt l).Perm l := by
  simpa [sortOrd] using foldl_insOrd_perm lt l []

theorem insOrd_pairwise {α : Type} {lt : α → α → Bool} {S Q : α → α → Prop}
    (h1 : ∀ x y, lt x y = true → S x y)
    (h2 : ∀ x y z, lt x y = true → S y z → S x z)
    (h3 : ∀ x y, lt x y = false → Q y x → S y x)
    (x : α) :
    ∀ l : List α, l.Pairwise S → (∀ y ∈ l, Q y x) →
      (insOrd lt x l).Pairwise S := by
  intro l
  induction l with
  | nil => intro _ _; simp [insOrd]
  | cons y ys ih =>
    intro hp hq
    rcases List.pairwise_cons.mp hp with ⟨hyS, hpys⟩
    rw [insOrd]
    by_cases hlt : lt x y
    · rw [if_pos hlt]
      refine List.pairwise_cons.mpr ⟨?_, hp⟩
      intro z hz
      rcases List.mem_cons.mp hz with rfl | hz
      · exact h1 x z hlt
      · exact h2 x y z hlt (hyS z hz)
    · rw [if_neg hlt]
      refine List.pairwise_cons.mpr ⟨?_, ?_⟩
      · intro z hz
        rcases mem_insOrd hz with rfl | hz
        · exact h3 z y (by simpa using hlt) (hq y (List.mem_cons_self y ys))
        · exact hyS z hz
      · exact ih hpys (fun z hz => hq z (List.mem_cons_of_mem y hz))

theorem foldl_insOrd_pairwise {α : Type} {lt : α → α → Bool} {S Q : α → α → Prop}
    (h1 : ∀ x y, lt x y = true → S x y)
    (h2 : ∀ x y z, lt x y = true → S y z → S x z)
    (h3 : ∀ x y, lt x y = false → Q y x → S y x) :
    ∀ (l acc : List α), acc.Pairwise S → (∀ y ∈ acc, ∀ x ∈ l, Q y x) →
      l.Pairwise Q →
      (l.foldl (fun acc x => insOrd lt x acc) acc).Pairwise S := by
  intro l
  induction l with
  | nil => intro acc hS _ _; simpa using hS
  | cons x xs ih =>
    intro acc hS hQ hPQ
    rcases List.pairwise_cons.mp hPQ with ⟨hxQ, hpxs⟩
    rw [List.foldl_cons]
    refine ih (insOrd lt x acc) ?_ ?_ hpxs
    · exact insOrd_pairwise h1 h2 h3 x acc hS
        (fun y hy => hQ y hy x (List.mem_cons_self x xs))
    · intro y hy x2 hx2
      rcases mem_insOrd hy with rfl | hy
      · exact hxQ x2 hx2
      · exact hQ y hy x2 (List.mem_cons_of_mem x hx2)

/-- A stable insertion sort by `lt` of a `Q`-pairwise list is `S`-pairwise,
when `lt` forces `S` forward (`h1`, `h2`) and a failed comparison lets the
original `Q`-order stand (`h3`). -/
theorem sortOrd_pairwise {α : Type} {lt : α → α → Bool} {S Q : α → α → Prop}
    (h1 : ∀ x y, lt x y = true → S x y)
    (h2 : ∀ x y z, lt x y = true → S y z → S x z)
    (h3 : ∀ x y, lt x y = false → Q y x → S y x)
    {l : List α} (hl : l.Pairwise Q) : (sortOrd lt l).Pairwise S := by
  rw [sortOrd]
  exact foldl_insOrd_pairwise h1 h2 h3 l [] List.Pairwise.nil (by simp) hl

/-! ### The lexicographic label order -/

theorem char_eq_of_toNat_eq {a b : Char} (h : a.toNat = b.toNat) : a = b :=
  Char.ext (UInt32.ext h)

theorem strLtB_trans :
    ∀ a b c, strLtB a b = true → strLtB b c = true → strLtB a c = true := by
  intro a
  induction a with
  | nil =>
    intro b c hab hbc
    cases b with
    | nil => simp [strLtB] at hab
    | cons y ys =>
      cases c with
      | nil => simp [strLtB] at hbc
      | cons z zs => rfl
  | cons x xs ih =>
    intro b c hab hbc
    cases b with
    | nil => simp [strLtB] at hab
    | cons y ys =>
      cases c with
      | nil => simp [strLtB] at hbc
      | cons z zs =>
        rw [strLtB] at hab hbc ⊢
        by_cases h1 : x.toNat < y.toNat
        · by_cases h2 : y.toNat < z.toNat
          · rw [if_pos (show x.toNat < z.toNat by omega)]
          · rw [if_neg h2] at hbc
            by_cases h3 : z.toNat < y.toNat
            · rw [if_pos h3] at hbc
              exact absurd hbc (by simp)
            · rw [if_pos (show x.toNat < z.toNat by omega)]
        · rw [if_neg h1] at hab
          by_cases h4 : y.toNat < x.toNat
          · rw [if_pos h4] at hab
            exact absurd hab (by simp)
          · rw [if_neg h4] at hab
            by_cases h2 : y.toNat < z.toNat
            · rw [if_pos (show x.toNat < z.toNat by omega)]
            · rw [if_neg h2] at hbc
              by_cases h3 : z.toNat < y.toNat
              · rw [if_pos h3] at hbc
                exact absurd hbc (by simp)
              · rw [if_neg h3] at hbc
                rw [if_neg (show ¬(x.toNat < z.toNat) by omega),
                  if_neg (show ¬(z.toNat < x.toNat) by omega)]
                exact ih ys zs hab hbc

theorem strLtB_of_false_of_ne :
    ∀ a b, strLtB a b = false → a ≠ b → strLtB b a = true := by
  intro a
  induction a with
  | nil =>
    intro b h hne
    cases b with
    | nil => exact absurd rfl hne
    | cons y ys => simp [strLtB] at h
  | cons x xs ih =>
    intro b h hne
    cases b with
    | nil => rfl
    | cons y ys =>
      rw [strLtB] at h ⊢
      by_cases h1 : x.toNat < y.toNat
      · rw [if_pos h1] at h
        exact absurd h (by simp)
      · rw [if_neg h1] at h
        by_cases h2 : y.toNat < x.toNat
        · rw [if_pos h2]
        · rw [if_neg h2] at h
          rw [if_neg h2, if_neg h1]
          have hxy : x = y := char_eq_of_toNat_eq (by omega)
          subst hxy
          refine ih ys h ?_
          intro he
          exact hne (by rw [he])

theorem strLt_of_false_of_ne {a b : String} (h : strLt a b = false) (hne : b ≠ a) :
    strLt b a = true := by
  refine strLtB_of_false_of_ne a.data b.data h ?_
  intro hd
  exact hne (String.ext hd).symm

/-- The group keys come out pairwise strictly ascending in the
lexicographic label order. -/
theorem groupKeys_pairwise (kept : List Row) :
    (groupKeys kept).Pairwise (fun a b => strLt a b = true) := by
  refine sortOrd_pairwise (Q := fun a b : String => a ≠ b) ?_ ?_ ?_ ?_
  · exact fun x y h => h
  · exact fun x y z hxy hyz => strLtB_trans _ _ _ hxy hyz
  · intro x y hf hne
    exact strLt_of_false_of_ne hf hne
  · exact List.nodup_dedup _

/-! ### Structure of one pipeline invocation -/

theorem groupAgg_eq (value : Row → Option ℚ) (rows : List Row) :
    groupAgg value rows =
      sortOrd (fun a b : AggRow => decide (b.mean < a.mean))
        ((groupKeys (rows.filter (fun r => (value r).isSome))).map
          (fun k =>
            AggRow.mk k
              ((rows.filter (fun r => (value r).isSome)).filterMap
                (fun r => if r.position = k then value r else none)).length
              (listMean ((rows.filter (fun r => (value r).isSome)).filterMap
                (fun r => if r.position = k then value r else none)))
              ((sampleVar ((rows.filter (fun r => (value r).isSome)).filterMap
                (fun r => if r.position = k then value r else none))).getD 0))) := rfl

/-- Every pipeline output is pairwise ordered: means never increase, and
two records with equal means appear in ascending lexicographic label
order — the stable descending-mean sort preserves the ascending label
order of the group keys on ties. -/
theorem groupAgg_pairwise (value : Row → Option ℚ) (rows : List Row) :
    (groupAgg value rows).Pairwise
      (fun a b => b.mean ≤ a.mean ∧ (a.mean = b.mean → strLt a.label b.label = true)) := by
  rw [groupAgg_eq]
  refine sortOrd_pairwise
    (Q := fun a b : AggRow => strLt a.label b.label = true) ?_ ?_ ?_ ?_
  · intro x y hxy
    rw [decide_eq_true_eq] at hxy
    exact ⟨le_of_lt hxy, fun he => absurd (he ▸ hxy) (lt_irrefl _)⟩
  · intro x y z hxy hSyz
    rw [decide_eq_true_eq] at hxy
    rcases hSyz with ⟨hzy, _⟩
    have hzx : z.mean < x.mean := lt_of_le_of_lt hzy hxy
    exact ⟨le_of_lt hzx, fun he => absurd (he ▸ hzx) (lt_irrefl _)⟩
  · intro x y hf hq
    rw [decide_eq_false_iff_not] at hf
    exact ⟨le_of_not_lt hf, fun _ => hq⟩
  · rw [List.pairwise_map]
    refine List.Pairwise.imp ?_ (groupKeys_pairwise _)
    intro a b hab
    exact hab

/-- A group with a single contributing member reports `svar = 0`: the
sample variance of one observation is undefined (`none`, pandas' NaN) and
the source's `fillna(0)` replaces it with zero. -/
theorem groupAgg_mem_singleton_svar {value : Row → Option ℚ} {rows : List Row}
    {g : AggRow} (hg : g ∈ groupAgg value rows) (hc : g.count = 1) :
    g.svar = 0 := by
  rw [groupAgg_eq] at hg
  rw [List.Perm.mem_iff (sortOrd_perm _ _)] at hg
  rcases List.mem_map.mp hg with ⟨k, hk, rfl⟩
  have hlen : ((rows.filter (fun r => (value r).isSome)).filterMap
      (fun r => if r.position = k then value r else none)).length = 1 := hc
  show (sampleVar ((rows.filter (fun r => (value r).isSome)).filterMap
    (fun r => if r.position = k then value r else none))).getD 0 = 0
  rw [sampleVar, if_pos (le_of_eq hlen)]
  rfl

theorem filterMap_if_length (value : Row → Option ℚ) (k : String) :
    ∀ kept : List Row, (∀ r ∈ kept, (value r).isSome = true) →
      (kept.filterMap (fun r => if r.position = k then value r else none)).length
        = kept.countP (fun r => r.position == k) := by
  intro kept
  induction kept with
  | nil => intro _; rfl
  | cons r rs ih =>
    intro h
    have hr := h r (List.mem_cons_self r rs)
    have hrs := fun x hx => h x (List.mem_cons_of_mem r hx)
    rw [List.countP_cons]
    by_cases hk : r.position = k
    · rcases hv : value r with _ | v
      · rw [hv] at hr; simp at hr
      · simp only [List.filterMap_cons, if_pos hk, hv]
        simp [hk, ih hrs]
    · simp only [List.filterMap_cons, if_neg hk]
      simp [hk, ih hrs]

/-- The member counts of one pipeline invocation partition the filtered
table: their sum is the number of rows whose value column is
non-missing. -/
theorem groupAgg_counts (value : Row → Option ℚ) (rows : List Row) :
    ((groupAgg value rows).map AggRow.count).sum =
      (rows.filter (fun r => (value r).isSome)).length := by
  rw [groupAgg_eq]
  have hkeptSome : ∀ r ∈ rows.filter (fun r => (value r).isSome),
      (value r).isSome = true := by
    intro r hr
    exact (List.mem_filter.mp hr).2
  rw [List.Perm.sum_eq ((sortOrd_perm _ _).map AggRow.count)]
  rw [List.map_map]
  have hcnt : ((groupKeys (rows.filter (fun r => (value r).isSome))).map
        (AggRow.count ∘ fun k =>
          AggRow.mk k
            ((rows.filter (fun r => (value r).isSome)).filterMap
              (fun r => if r.position = k then value r else none)).length
            (listMean ((rows.filter (fun r => (value r).isSome)).filterMap
              (fun r => if r.position = k then value r else none)))
            ((sampleVar ((rows.filter (fun r => (value r).isSome)).filterMap
              (fun r => if r.position = k then value r else none))).getD 0)))
      = (groupKeys (rows.filter (fun r => (value r).isSome))).map
          (fun k => (rows.filter (fun r => (value r).isSome)).countP
            (fun r => r.position == k)) := by
    refine List.map_congr_left ?_
    intro k _
    exact filterMap_if_length value k _ hkeptSome
  rw [hcnt, groupKeys]
  rw [List.Perm.sum_eq ((sortOrd_perm strLt
    ((rows.filter (fun r => (value r).isSome)).map Row.position).dedup).map _)]
  have hpt : (((rows.filter (fun r => (value r).isSome)).map Row.position).dedup.map
        (fun k => (rows.filter (fun r => (value r).isSome)).countP
          (fun r => r.position == k)))
      = (((rows.filter (fun r => (value r).isSome)).map Row.position).dedup.map
          (fun k => ((rows.filter (fun r => (value r).isSome)).map Row.position).count k)) := by
    refine List.map_congr_left ?_
    intro k _
    rw [List.count_eq_countP, List.countP_map]
    rfl
  rw [hpt, List.sum_map_count_dedup_eq_length, List.length_map]

/-! ### The end-to-end scenario -/

theorem heightSummary_table3 :
    heightSummary table3 = { mean := some 81, min := some 78, max := some 84 } := by
  have hl : heightsList table3 = [78, 84, 81] := by decide
  simp only [heightSummary, hl]
  rw [show listMinI [78, 84, 81] = some 78 from by decide,
    show listMaxI [78, 84, 81] = some 84 from by decide]
  norm_num

theorem heightByPos_table3 :
    heightByPos table3 =
      [AggRow.mk "C" 1 84 0, AggRow.mk "F" 1 81 0, AggRow.mk "G" 1 78 0] := by
  have hkept : table3.filter (fun r => (heightValQ r).isSome) = table3 := by decide
  have hkeys : groupKeys table3 = ["C", "F", "G"] := by decide
  have hvC : table3.filterMap
      (fun r => if r.position = "C" then heightValQ r else none) = [((84 : Int) : ℚ)] := by
    decide
  have hvF : table3.filterMap
      (fun r => if r.position = "F" then heightValQ r else none) = [((81 : Int) : ℚ)] := by
    decide
  have hvG : table3.filterMap
      (fun r => if r.position = "G" then heightValQ r else none) = [((78 : Int) : ℚ)] := by
    decide
  have hm : ∀ q : ℚ, listMean [q] = q := by
    intro q; simp [listMean]
  have hs : ∀ q : ℚ, (sampleVar [q]).getD 0 = 0 := by
    intro q; simp [sampleVar]
  simp only [heightByPos, groupAgg, hkept, hkeys, List.map_cons, List.map_nil,
    hvC, hvF, hvG, hm, hs]
  norm_num [sortOrd, insOrd]

/-- **C3, counterexample.** The claimed global mean of 79.0 is false on
the scenario table: the normalized heights are 78, 84 and 81, whose mean
is 81.  (Everything else the claim lists is as stated.) -/
theorem end_to_end_mean_counterexample :
    (heightSummary table3).mean = some 81 ∧
      ¬((heightSummary table3).mean = some (79 : ℚ)) := by
  rw [heightSummary_table3]
  refine ⟨rfl, ?_⟩
  intro h
  rw [Option.some.injEq] at h
  norm_num at h

/-- **C3, amended.** On the 3-row scenario table the global height summary
has mean 81 — not the claimed 79 — min 78 and max 84, and the
per-position aggregate holds exactly the three groups C, F, G with means
84, 81, 78 in that (descending-mean) order, each from a single member,
with `svar = 0` and hence standard deviation `√0 = 0`. -/
theorem end_to_end_pipeline :
    heightSummary table3 = { mean := some 81, min := some 78, max := some 84 } ∧
    heightByPos table3 =
      [AggRow.mk "C" 1 84 0, AggRow.mk "F" 1 81 0, AggRow.mk "G" 1 78 0] ∧
    (heightByPos table3).map (fun g => Real.sqrt ((g.svar : ℚ) : ℝ)) = [0, 0, 0] := by
  refine ⟨heightSummary_table3, heightByPos_table3, ?_⟩
  rw [heightByPos_table3]
  simp

/-- **C5.** In both per-position aggregates (`height_in` and weight), any
group with exactly one contributing member reports a defined standard
deviation equal to zero: its `svar` (squared std) is `0` — the `NaN`
sample deviation of one observation replaced by the source's
`fillna(0)` — hence `std = √0 = 0`, never left missing. -/
theorem singleton_group_std_zero (rows : List Row) (g : AggRow)
    (hg : g ∈ heightByPos rows ∨ g ∈ weightByPos rows) (hc : g.count = 1) :
    g.svar = 0 ∧ Real.sqrt ((g.svar : ℚ) : ℝ) = 0 := by
  have hz : g.svar = 0 := by
    rcases hg with hg | hg
    · exact groupAgg_mem_singleton_svar hg hc
    · exact groupAgg_mem_singleton_svar hg hc
  refine ⟨hz, ?_⟩
  rw [hz]
  simp

/-- Witness for C5: the group `C` of the scenario table, a single-member
group of the height aggregate. -/
theorem singleton_group_std_zero_witness :
    (AggRow.mk "C" 1 84 0).svar = 0 ∧
      Real.sqrt (((AggRow.mk "C" 1 84 0).svar : ℚ) : ℝ) = 0 :=
  singleton_group_std_zero table3 (AggRow.mk "C" 1 84 0)
    (Or.inl (by rw [heightByPos_table3]; exact List.mem_cons_self _ _)) rfl

/-- A two-row table whose positions tie on mean height and whose
first-seen label order (`B` then `A`) disagrees with the alphabetical
order. -/
def tblTie : List Row :=
  [ { height := Raw.str "6-0", weight := Raw.null, position := "B" },
    { height := Raw.str "6-0", weight := Raw.null, position := "A" } ]

theorem heightByPos_tblTie :
    heightByPos tblTie = [AggRow.mk "A" 1 72 0, AggRow.mk "B" 1 72 0] := by
  have hkept : tblTie.filter (fun r => (heightValQ r).isSome) = tblTie := by decide
  have hkeys : groupKeys tblTie = ["A", "B"] := by decide
  have hvA : tblTie.filterMap
      (fun r => if r.position = "A" then heightValQ r else none) = [((72 : Int) : ℚ)] := by
    decide
  have hvB : tblTie.filterMap
      (fun r => if r.position = "B" then heightValQ r else none) = [((72 : Int) : ℚ)] := by
    decide
  have hm : ∀ q : ℚ, listMean [q] = q := by
    intro q; simp [listMean]
  have hs : ∀ q : ℚ, (sampleVar [q]).getD 0 = 0 := by
    intro q; simp [sampleVar]
  simp only [heightByPos, groupAgg, hkept, hkeys, List.map_cons, List.map_nil,
    hvA, hvB, hm, hs]
  norm_num [sortOrd, insOrd]

/-- **C6, counterexample.** On `tblTie` the two groups tie at mean 72, so
the output is not strictly descending; and they appear in alphabetical
order `[A, B]`, not in the first-seen label order `[B, A]` the claim
asserts for ties. -/
theorem mean_sort_tie_counterexample :
    (heightByPos tblTie).map AggRow.label = ["A", "B"] ∧
    (heightByPos tblTie).map AggRow.mean = [72, 72] ∧
    firstSeenLabels tblTie = ["B", "A"] ∧
    ¬ List.Pairwise (fun a b : AggRow => b.mean < a.mean) (heightByPos tblTie) := by
  rw [heightByPos_tblTie]
  refine ⟨rfl, rfl, by decide, ?_⟩
  intro hp
  rcases List.pairwise_cons.mp hp with ⟨hh, _⟩
  have := hh (AggRow.mk "B" 1 72 0) (List.mem_cons_self _ _)
  norm_num at this

/-- **C6, amended.** For every input table the per-position mean-height
aggregate is sorted by non-increasing (not strictly decreasing) mean, and
any two groups with equal means appear in ascending lexicographic
label order — the group-key order of the grouping step, which the stable
mean sort preserves — not in first-seen order. -/
theorem mean_sort_desc_ties_alphabetical (rows : List Row) :
    (heightByPos rows).Pairwise
      (fun a b => b.mean ≤ a.mean ∧ (a.mean = b.mean → strLt a.label b.label = true)) :=
  groupAgg_pairwise heightValQ rows

/-- Witness for C6 (amended): the pairwise ordering evaluated on the
scenario table. -/
theorem mean_sort_desc_ties_alphabetical_witness :
    (heightByPos table3).Pairwise
      (fun a b => b.mean ≤ a.mean ∧ (a.mean = b.mean → strLt a.label b.label = true)) :=
  mean_sort_desc_ties_alphabetical table3

/-- **C7.** The member counts of the height-by-position aggregate
(aggregate 5) partition the filtered table: their sum equals the number
of rows of the full table whose `height_in` is non-missing. -/
theorem group_counts_partition (rows : List Row) :
    ((heightByPos rows).map AggRow.count).sum =
      (rows.filter (fun r => (height_in r).isSome)).length := by
  have h := groupAgg_counts heightValQ rows
  have hfil : rows.filter (fun r => (heightValQ r).isSome)
      = rows.filter (fun r => (height_in r).isSome) := by
    refine List.filter_congr ?_
    intro r _
    simp [heightValQ, Option.isSome_map]
  rw [hfil] at h
  exact h

/-- Witness for C7: the partition identity evaluated on the scenario
table (3 = 3). -/
theorem group_counts_partition_witness :
    ((heightByPos table3).map AggRow.count).sum =
      (table3.filter (fun r => (height_in r).isSome)).length :=
  group_counts_partition table3

example : pyInt "007" = some 7 := by decide
example : pyInt "" = none := by decide
example : pyInt "1_0" = some 10 := by decide
example : pyInt "1__0" = none := by decide
example : pyInt "_1" = none := by decide
example : pyInt " -12 " = some (-12) := by decide

end EnhancedViz
